import Mathlib

/-!
Verification development for the MidasPython trading engine core.

This file gives a shallow embedding, in Lean 4, of the engine components the
specification talks about:

* `src/midas/shared/orders.py` — order construction and validation
  (`BaseOrder`, `MarketOrder`, `LimitOrder`, `StopLoss`);
* `src/midas/engine/portfolio/portfolio_server.py` — the portfolio state
  (`positions`, `active_orders`, `pending_positions_update`, `account`) and its
  mutators `update_positions`, `update_orders`, `update_account_details`, plus
  the query `get_active_order_tickers`;
* `src/midas/engine/components/order_manager.py` — the signal-to-order
  admission pipeline (`handle_event`, `_handle_signal`);
* `src/midas/engine/gateways/backtest/data_client.py` — the backtest market
  data clock (`data_stream`, `_process_eod`, `_set_market_data`) together with
  the preprocessing done by `get_data` and `_process_bardata`.

Python dictionaries are modelled as association lists, Python sets as
duplicate-free lists, numeric values (floats and Decimals) as rationals, and
notifications (`Subject.notify`) as an explicit list of emitted event types
returned next to the new state.  Methods that can raise return `Except`.
-/

deriving instance DecidableEq for Except

namespace Midas

/-- Event types from `midas/engine/components/observer/base.py` (the
`ACCOUNT_DETAIL_UPDATE` constructor comes from the older observer module used
by `portfolio_server.py`; only the constructors below are ever notified by the
embedded code). -/
inductive EventType where
  | MARKET_DATA
  | ORDER_BOOK
  | SIGNAL
  | ORDER_CREATED
  | TRADE_EXECUTED
  | EOD_EVENT
  | POSITION_UPDATE
  | ORDER_UPDATE
  | ACCOUNT_UPDATE
  | ACCOUNT_DETAIL_UPDATE
  deriving DecidableEq, Repr

/-- Trade actions, from `midas/shared/orders.py` (`class Action`): LONG and
SHORT are entry actions, SELL and COVER are exit actions. -/
inductive Action where
  | LONG
  | COVER
  | SHORT
  | SELL
  deriving DecidableEq, Repr

/-- `Action.to_broker_standard`: LONG and COVER map to BUY, SHORT and SELL map
to SELL. -/
def Action.to_broker_standard : Action → String
  | Action.LONG => "BUY"
  | Action.COVER => "BUY"
  | Action.SHORT => "SELL"
  | Action.SELL => "SELL"

/-- Order types, from `midas/shared/orders.py` (`class OrderType`), with their
Interactive Brokers string values. -/
inductive OrderType where
  | MARKET
  | LIMIT
  | STOPLOSS
  deriving DecidableEq, Repr

/-- The `value` of an `OrderType` enum member. -/
def OrderType.value : OrderType → String
  | OrderType.MARKET => "MKT"
  | OrderType.LIMIT => "LMT"
  | OrderType.STOPLOSS => "STP"

/-- The ibapi `Order` object as populated by `BaseOrder.__init__` and the
subclass constructors: broker action string, order type string, absolute
quantity, and the two optional price fields (0 when unset). -/
structure IBOrder where
  action : String
  orderType : String
  totalQuantity : ℚ
  lmtPrice : ℚ
  auxPrice : ℚ
  deriving DecidableEq, Repr

/-- The `quantity` property of `BaseOrder`: positive for BUY, negative
otherwise. -/
def IBOrder.quantity (o : IBOrder) : ℚ :=
  if o.action = "BUY" then o.totalQuantity else -o.totalQuantity

/-- `BaseOrder.__init__` from `midas/shared/orders.py`: converts the action to
BUY/SELL, rejects a zero quantity, and stores the absolute quantity.  The
Python type checks on the arguments are guaranteed by Lean types. -/
def BaseOrder (action : Action) (quantity : ℚ) (order_type : OrderType) :
    Except String IBOrder :=
  let broker_action := action.to_broker_standard
  if quantity = 0 then
    Except.error ("quantity field must not be zero.")
  else
    Except.ok
      { action := broker_action
        orderType := order_type.value
        totalQuantity := |quantity|
        lmtPrice := 0
        auxPrice := 0 }

/-- `MarketOrder.__init__`: a `BaseOrder` of type MARKET. -/
def MarketOrder (action : Action) (quantity : ℚ) : Except String IBOrder :=
  BaseOrder action quantity OrderType.MARKET

/-- `LimitOrder.__init__`: rejects a non-positive limit price (before the base
constructor runs), then builds a `BaseOrder` of type LIMIT and stores the limit
price on it. -/
def LimitOrder (action : Action) (quantity : ℚ) (limit_price : ℚ) :
    Except String IBOrder :=
  if limit_price ≤ 0 then
    Except.error ("limit_price field must be greater than zero.")
  else
    match BaseOrder action quantity OrderType.LIMIT with
    | Except.ok o => Except.ok { o with lmtPrice := limit_price }
    | Except.error e => Except.error e

/-- `StopLoss.__init__`: rejects a non-positive auxiliary price (before the
base constructor runs), then builds a `BaseOrder` of type STOPLOSS and stores
the auxiliary price on it. -/
def StopLoss (action : Action) (quantity : ℚ) (aux_price : ℚ) :
    Except String IBOrder :=
  if aux_price ≤ 0 then
    Except.error ("aux_price field must be greater than zero.")
  else
    match BaseOrder action quantity OrderType.STOPLOSS with
    | Except.ok o => Except.ok { o with auxPrice := aux_price }
    | Except.error e => Except.error e

/-! ## Association-list helpers (Python dict / set operations) -/

/-- Lookup in an association list (Python `d[k]` / `k in d`). -/
def alookup {α β : Type} [DecidableEq α] (l : List (α × β)) (k : α) : Option β :=
  match l with
  | [] => none
  | p :: rest => if p.1 = k then some p.2 else alookup rest k

/-- Deletion from an association list (Python `del d[k]`). -/
def aerase {α β : Type} [DecidableEq α] (l : List (α × β)) (k : α) :
    List (α × β) :=
  l.filter (fun p => p.1 ≠ k)

/-- Insertion / overwrite in an association list (Python `d[k] = v`, and also
`d[k].update(v)` when `v` carries every field). -/
def ainsert {α β : Type} [DecidableEq α] (l : List (α × β)) (k : α) (v : β) :
    List (α × β) :=
  (k, v) :: aerase l k

/-- Set insertion (Python `s.add(x)`). -/
def sadd (l : List String) (x : String) : List String :=
  if x ∈ l then l else x :: l

/-- Set removal (Python `s.discard(x)`). -/
def sdiscard (l : List String) (x : String) : List String :=
  l.filter (fun t => t ≠ x)

/-! ## Portfolio server (`midas/engine/portfolio/portfolio_server.py`) -/

/-- A position record.  The source class (`midas.shared.positions`, not under
`src/`) carries more bookkeeping fields; the portfolio server only ever
inspects `quantity`, so one representative extra field (`avg_price`) stands for
the rest, making equality of positions meaningful. -/
structure Position where
  quantity : ℚ
  avg_price : ℚ
  deriving DecidableEq, Repr

/-- An active-order record, dict-like in the source (`order["status"]`,
`order["orderId"]`, `order["symbol"]`). -/
structure ActiveOrder where
  orderId : ℕ
  symbol : String
  status : String
  quantity : ℚ
  deriving DecidableEq, Repr

/-- The account snapshot; the portfolio server only reads `capital`. -/
structure Account where
  capital : ℚ
  deriving DecidableEq, Repr

/-- The mutable state of `PortfolioServer`: positions keyed by ticker, active
orders keyed by broker order id, the pending position-update ticker set, and
the account snapshot.  (The `symbols_map`, logger and database handles of the
source class play no role in the modelled behavior.) -/
structure PortfolioServer where
  positions : List (String × Position)
  active_orders : List (ℕ × ActiveOrder)
  pending_positions_update : List String
  account : Account
  deriving DecidableEq, Repr

/-- The `capital` property: read through to the account snapshot. -/
def PortfolioServer.capital (s : PortfolioServer) : ℚ :=
  s.account.capital

/-- `PortfolioServer.get_active_order_tickers`: the tickers of all active
orders combined with the pending position-update tickers, de-duplicated. -/
def get_active_order_tickers (s : PortfolioServer) : List String :=
  ((s.active_orders.map (fun p => p.2.symbol)) ++
    s.pending_positions_update).dedup

/-- `PortfolioServer.update_positions`.  Mirrors the source exactly: if the
ticker is already present, a zero-quantity incoming position deletes the entry
(then discards the pending marker and notifies POSITION_UPDATE), and any other
incoming position returns immediately with no state change and no
notification; if the ticker is absent, the incoming position is stored (then
the pending marker is discarded and POSITION_UPDATE notified). -/
def update_positions (s : PortfolioServer) (contract_symbol : String)
    (new_position : Position) : PortfolioServer × List EventType :=
  if (alookup s.positions contract_symbol).isSome then
    if new_position.quantity = 0 then
      let s1 := { s with
        positions := aerase s.positions contract_symbol }
      let s2 := { s1 with
        pending_positions_update :=
          sdiscard s1.pending_positions_update contract_symbol }
      (s2, [EventType.POSITION_UPDATE])
    else
      (s, [])
  else
    let s1 := { s with
      positions := ainsert s.positions contract_symbol new_position }
    let s2 := { s1 with
      pending_positions_update :=
        sdiscard s1.pending_positions_update contract_symbol }
    (s2, [EventType.POSITION_UPDATE])

/-- `PortfolioServer.update_orders`.  Status-driven transition on the active
orders dict: Cancelled with a known id deletes; Filled with a known id marks
the ticker pending and deletes; any non-terminal status inserts or
merge-updates (a full-record merge, i.e. overwrite).  ORDER_UPDATE is notified
on every call. -/
def update_orders (s : PortfolioServer) (order : ActiveOrder) :
    PortfolioServer × List EventType :=
  let s1 :=
    if order.status = "Cancelled" ∧
        (alookup s.active_orders order.orderId).isSome then
      { s with active_orders := aerase s.active_orders order.orderId }
    else if order.status = "Filled" ∧
        (alookup s.active_orders order.orderId).isSome then
      { s with
        pending_positions_update :=
          sadd s.pending_positions_update order.symbol
        active_orders := aerase s.active_orders order.orderId }
    else if order.status ≠ "Cancelled" ∧ order.status ≠ "Filled" then
      { s with active_orders := ainsert s.active_orders order.orderId order }
    else
      s
  (s1, [EventType.ORDER_UPDATE])

/-- `PortfolioServer.update_account_details`: unconditional overwrite of the
account snapshot, notifying ACCOUNT_DETAIL_UPDATE. -/
def update_account_details (s : PortfolioServer) (account_details : Account) :
    PortfolioServer × List EventType :=
  ({ s with account := account_details }, [EventType.ACCOUNT_DETAIL_UPDATE])

/-! ## Order execution manager (`midas/engine/components/order_manager.py`) -/

/-- The symbol registry entry consulted by the order manager
(`self.symbols_map.map[trade.instrument]`).  The `Symbol` class lives outside
`src/` (external interface, spec section 6): it provides the instrument id,
the broker contract and the cost function `cost(quantity, price) -> capital`,
all read-only to the core. -/
structure Symbol where
  instrument_id : ℕ
  contract : String
  cost : ℚ → ℚ → ℚ

/-- One leg of a trading decision
(`midas.signal.SignalInstruction`, external to `src/`): instrument ticker,
action, trade and leg ids, and the result of its own `to_order()` conversion
(which the order manager delegates to and which may fail). -/
structure SignalInstruction where
  instrument : String
  action : Action
  trade_id : ℕ
  leg_id : ℕ
  toOrder : Except String IBOrder

/-- A signal event: nanosecond timestamp plus the list of instructions. -/
structure SignalEvent where
  timestamp : ℕ
  instructions : List SignalInstruction

/-- The `order_details` dict assembled in the first loop of
`_handle_signal`. -/
structure OrderDetails where
  timestamp : ℕ
  trade_id : ℕ
  leg_id : ℕ
  action : Action
  contract : String
  order : IBOrder
  deriving DecidableEq, Repr

/-- The `OrderEvent` published via `notify(EventType.ORDER_CREATED, ...)`
(its class definition is external to `src/`; the order manager fills exactly
these fields). -/
structure OrderEvent where
  timestamp : ℕ
  trade_id : ℕ
  leg_id : ℕ
  action : Action
  contract : String
  order : IBOrder
  deriving DecidableEq, Repr

/-- The external collaborators of the order manager: the symbol registry
(`symbols_map.map`) and the order book price lookup
(`order_book.retrieve(instrument_id)`). -/
structure OrderManagerEnv where
  symbols_map : String → Symbol
  retrieve : ℕ → ℚ

/-- First loop of `OrderExecutionManager._handle_signal`: for each
instruction, resolve its symbol, convert it to a concrete order (a conversion
failure is wrapped and re-raised as a processing failure), price it through
the order book, accumulate the order cost into the batch total, and collect
the order details. -/
def buildOrders (env : OrderManagerEnv) (timestamp : ℕ) :
    List SignalInstruction → Except String (List OrderDetails × ℚ)
  | [] => Except.ok ([], 0)
  | trade :: rest =>
    let symbol := env.symbols_map trade.instrument
    match trade.toOrder with
    | Except.error e =>
      Except.error ("Failed to create order due to input: " ++ e)
    | Except.ok order =>
      let current_price := env.retrieve symbol.instrument_id
      let order_cost := symbol.cost order.quantity current_price
      match buildOrders env timestamp rest with
      | Except.error e => Except.error e
      | Except.ok (orders, total) =>
        Except.ok
          ({ timestamp := timestamp
             trade_id := trade.trade_id
             leg_id := trade.leg_id
             action := trade.action
             contract := symbol.contract
             order := order } :: orders,
           order_cost + total)

/-- `OrderExecutionManager._set_order`: wrap the order details into an
`OrderEvent` (published via ORDER_CREATED). -/
def set_order (od : OrderDetails) : OrderEvent :=
  { timestamp := od.timestamp
    trade_id := od.trade_id
    leg_id := od.leg_id
    action := od.action
    contract := od.contract
    order := od.order }

/-- Second loop of `OrderExecutionManager._handle_signal`: an order whose
action is SELL or COVER, or whose batch total capital requirement is within
the available capital, is published; otherwise it is skipped (logged only).
The batch total and the capital are the same for every iteration. -/
def admitOrders (total_capital_required : ℚ) (capital : ℚ) :
    List OrderDetails → List OrderEvent
  | [] => []
  | od :: rest =>
    if od.action = Action.SELL ∨ od.action = Action.COVER ∨
        total_capital_required ≤ capital then
      set_order od :: admitOrders total_capital_required capital rest
    else
      admitOrders total_capital_required capital rest

/-- `OrderExecutionManager._handle_signal`: build and price all orders, then
run the admission loop against the portfolio capital.  Returns the list of
published ORDER_CREATED events. -/
def handle_signal (env : OrderManagerEnv) (ps : PortfolioServer)
    (timestamp : ℕ) (trade_instructions : List SignalInstruction) :
    Except String (List OrderEvent) :=
  match buildOrders env timestamp trade_instructions with
  | Except.error e => Except.error e
  | Except.ok (orders, total_capital_required) =>
    Except.ok (admitOrders total_capital_required ps.capital orders)

/-- `OrderExecutionManager.handle_event`: on a SIGNAL event, drop the whole
signal (returning no events) when any instruction's instrument appears in the
portfolio's active-order tickers; otherwise process it.  Any other event type
is ignored.  The order manager holds no state of its own, so the portfolio
state is read-only here. -/
def handle_event (env : OrderManagerEnv) (ps : PortfolioServer)
    (event_type : EventType) (event : SignalEvent) :
    Except String (List OrderEvent) :=
  if event_type = EventType.SIGNAL then
    let active_orders_tickers := get_active_order_tickers ps
    if event.instructions.any
        (fun trade => trade.instrument ∈ active_orders_tickers) then
      Except.ok []
    else
      handle_signal env ps event.timestamp event.instructions
  else
    Except.ok []

/-! ## Backtest market data clock
(`midas/engine/gateways/backtest/data_client.py`)

Timestamps are nanosecond UNIX times (`np.uint64` in the source).  The
calendar day of a timestamp is computed in the source by
`parser.parse(unix_to_iso(ts)).date()` with the UTC timezone; for non-negative
nanosecond timestamps this is the number of whole days since the epoch, i.e.
integer division by the nanoseconds in a day.

The threading parts are made explicit: the `eod_event_flag` is passed in and
returned as a boolean, and each call takes one environment bit
`env_sets_flag` describing how the bounded wait loop resolves — `true` when
the downstream consumer finishes its end-of-day processing (draining the
queue and setting the flag) before the loop's queue check, `false` when the
loop observes a non-empty event queue first and returns early.  These are the
only two ways the source loop terminates: whenever the flag is down the clock
itself has just enqueued the EOD event, so the queue stays non-empty until
the consumer drains it, and draining it is what raises the flag. -/

/-- Nanoseconds in one calendar day. -/
def nsPerDay : ℕ := 86400000000000

/-- Calendar day (days since the epoch, UTC) of a nanosecond timestamp, as
computed by `unix_to_iso` followed by `parser.parse(...).date()`. -/
def dayOf (ts : ℕ) : ℕ := ts / nsPerDay

/-- One row of the processed historical data frame (after
`_process_bardata`): timestamp, ticker symbol, OHLCV fields. -/
structure Row where
  timestamp : ℕ
  symbol : String
  open_ : ℚ
  high : ℚ
  low : ℚ
  close : ℚ
  volume : ℕ
  deriving DecidableEq, Repr

/-- The `BarData` record posted to the order book for one ticker. -/
structure BarData where
  ticker : String
  timestamp : ℕ
  open_ : ℚ
  high : ℚ
  low : ℚ
  close : ℚ
  volume : ℕ
  deriving DecidableEq, Repr

/-- Conversion of a data row into the `BarData` posted by
`_set_market_data`. -/
def Row.toBarData (r : Row) : BarData :=
  { ticker := r.symbol
    timestamp := r.timestamp
    open_ := r.open_
    high := r.high
    low := r.low
    close := r.close
    volume := r.volume }

/-- The observable outputs of the clock: an `EODEvent` put on the event queue
by `_process_eod`, or a batch of bars keyed by ticker posted to the order book
by `_set_market_data`. -/
inductive ClockEvent where
  | eod (day : ℕ)
  | bars (ts : ℕ) (batch : List (String × BarData))
  deriving DecidableEq, Repr

/-- The state of `DataClient` relevant to streaming: the processed data rows,
the distinct timestamps, and the cursor fields `next_date`,
`current_date_index`, `current_day`. -/
structure DataClient where
  data : List Row
  unique_timestamps : List ℕ
  next_date : Option ℕ
  current_date_index : ℕ
  current_day : Option ℕ
  deriving DecidableEq, Repr

/-- Sorting step of `_process_bardata`: rows ordered by ascending
timestamp. -/
def sortRows (rows : List Row) : List Row :=
  rows.mergeSort (fun a b => decide (a.timestamp ≤ b.timestamp))

/-- Collapse of equal adjacent timestamps; on a timestamp-sorted list this is
exactly pandas `unique` (first-appearance order) used by `get_data` to build
`unique_timestamps`. -/
def uniqueSorted : List ℕ → List ℕ
  | [] => []
  | [a] => [a]
  | a :: b :: rest =>
    if a = b then uniqueSorted (b :: rest) else a :: uniqueSorted (b :: rest)

/-- `DataClient.get_data` (the part that initializes streaming): store the
timestamp-sorted rows and their distinct timestamps, with the cursor at the
start, no current day, and no next date. -/
def initClock (rows : List Row) : DataClient :=
  { data := sortRows rows
    unique_timestamps := uniqueSorted ((sortRows rows).map Row.timestamp)
    next_date := none
    current_date_index := 0
    current_day := none }

/-- `DataClient._get_latest_data`: all rows sharing the current
`next_date`. -/
def get_latest_data (s : DataClient) : List Row :=
  s.data.filter (fun r => r.timestamp = match s.next_date with
    | some nd => nd
    | none => 0)

/-- `DataClient._set_market_data`: the per-ticker dict built from the latest
rows (later rows overwrite earlier ones with the same ticker, as in the
Python dict assignment). -/
def set_market_data (s : DataClient) : List (String × BarData) :=
  (get_latest_data s).foldl
    (fun acc r => ainsert acc r.symbol r.toBarData) []

/-- Day-boundary block of `DataClient.data_stream`: store `next_date`; if no
day is current yet, or the day changed, update `current_day` (and, when a
previous day exists, clear the flag and enqueue the EOD event for that
previous day). -/
def boundary (s : DataClient) (flag : Bool) (next_date : ℕ) :
    DataClient × Bool × List ClockEvent :=
  match s.current_day with
  | none =>
    ({ s with
        next_date := some next_date
        current_day := some (dayOf next_date) },
      flag, [])
  | some d =>
    if dayOf next_date ≠ d then
      ({ s with
          next_date := some next_date
          current_day := some (dayOf next_date) },
        false, [ClockEvent.eod d])
    else
      ({ s with next_date := some next_date }, flag, [])

/-- Tail of `DataClient.data_stream` after the day-boundary block: the wait
loop (resolved by the environment bit, see the section comment) followed, on
the publish path, by `_set_market_data` and the cursor increment. -/
def advanceWith (s1 : DataClient) (flag1 : Bool) (evs : List ClockEvent)
    (next_date : ℕ) (env_sets_flag : Bool) :
    Bool × DataClient × Bool × List ClockEvent :=
  if flag1 || env_sets_flag then
    (true, { s1 with current_date_index := s1.current_date_index + 1 }, true,
     evs ++ [ClockEvent.bars next_date (set_market_data s1)])
  else
    (true, s1, false, evs)

/-- `DataClient.data_stream`.  Returns the `advance()` boolean, the new
state, the new flag value, and the events emitted during the call, in
emission order.  Structure mirrors the source: exhaustion check; the
day-boundary block (`boundary`); the bounded wait on the flag and the market
data publication (`advanceWith`). -/
def data_stream (s : DataClient) (flag : Bool) (env_sets_flag : Bool) :
    Bool × DataClient × Bool × List ClockEvent :=
  if h : s.current_date_index < s.unique_timestamps.length then
    let next_date := s.unique_timestamps.get ⟨s.current_date_index, h⟩
    let step1 := boundary s flag next_date
    advanceWith step1.1 step1.2.1 step1.2.2 next_date env_sets_flag
  else
    (false, s, flag, [])

/-- Iterated driver loop: repeatedly call `data_stream`, one environment bit
per call, collecting the emitted events in order. -/
def runClock (s : DataClient) (flag : Bool) :
    List Bool → DataClient × Bool × List ClockEvent
  | [] => (s, flag, [])
  | env :: envs =>
    let r := data_stream s flag env
    let rest := runClock r.2.1 r.2.2.1 envs
    (rest.1, rest.2.1, r.2.2.2 ++ rest.2.2)

/-- The sequence of `advance()` return values along a driver run. -/
def runResults (s : DataClient) (flag : Bool) : List Bool → List Bool
  | [] => []
  | env :: envs =>
    let r := data_stream s flag env
    r.1 :: runResults r.2.1 r.2.2.1 envs

/-- Number of EndOfDay events for a given day in a trace. -/
def countEod (day : ℕ) (evs : List ClockEvent) : ℕ :=
  (evs.filter (fun e => e = ClockEvent.eod day)).length

/-- Checks that in a trace every bar batch whose timestamp falls on day `d2`
comes strictly after some EndOfDay event for day `d1`.  The boolean
accumulator records whether an `eod d1` has been seen. -/
def eodPrecedesBars (d1 d2 : ℕ) : List ClockEvent → Bool → Bool
  | [], _ => true
  | ClockEvent.eod d :: rest, seen =>
    eodPrecedesBars d1 d2 rest (seen || d = d1)
  | ClockEvent.bars ts _ :: rest, seen =>
    (decide (dayOf ts ≠ d2) || seen) && eodPrecedesBars d1 d2 rest seen

/-- State invariant for the exhaustion claim: the current day, when set, is
the calendar day of some timestamp at or before the cursor. -/
def DayInv (s : DataClient) : Prop :=
  ∀ d, s.current_day = some d →
    ∃ j, ∃ hj : j < s.unique_timestamps.length,
      j ≤ s.current_date_index ∧ d = dayOf (s.unique_timestamps.get ⟨j, hj⟩)

/-- Every event in the list is a bar batch whose timestamp falls on day
`d`. -/
def allBarsOn (d : ℕ) (evs : List ClockEvent) : Prop :=
  ∀ e ∈ evs, ∃ ts b, e = ClockEvent.bars ts b ∧ dayOf ts = d

/-- Every event in the list is a bar batch (no EOD events). -/
def barsOnly (evs : List ClockEvent) : Prop :=
  ∀ e ∈ evs, ∃ ts b, e = ClockEvent.bars ts b

/-- Run invariant for the day-boundary claim over a two-day data set with
days `D1 < D2`: before any day is current the trace is empty and the cursor
at the start; while day `D1` is current the trace holds only `D1` bar batches
and every timestamp below the cursor falls on `D1`; once day `D2` is current
every timestamp from the cursor on falls on `D2` and the trace decomposes as
`D1` bar batches, then the single EndOfDay event for `D1`, then bar batches
only. -/
def InvC6 (D1 D2 : ℕ) (s : DataClient) (evs : List ClockEvent) : Prop :=
  s.current_date_index ≤ s.unique_timestamps.length ∧
  ((s.current_day = none ∧ s.current_date_index = 0 ∧ evs = []) ∨
   (s.current_day = some D1 ∧ allBarsOn D1 evs ∧
     ∀ j, ∀ hj : j < s.unique_timestamps.length, j < s.current_date_index →
       dayOf (s.unique_timestamps.get ⟨j, hj⟩) = D1) ∨
   (s.current_day = some D2 ∧
     (∀ j, ∀ hj : j < s.unique_timestamps.length, s.current_date_index ≤ j →
       dayOf (s.unique_timestamps.get ⟨j, hj⟩) = D2) ∧
     ∃ pre post, evs = pre ++ ClockEvent.eod D1 :: post ∧
       allBarsOn D1 pre ∧ barsOnly post))

/-! ## Helper lemmas -/

theorem boundary_none (s : DataClient) (flag : Bool) (nd : ℕ)
    (hcd : s.current_day = none) :
    boundary s flag nd =
      ({ s with
          next_date := some nd
          current_day := some (dayOf nd) },
        flag, []) := by
  unfold boundary
  rw [hcd]

theorem boundary_some_ne (s : DataClient) (flag : Bool) (nd : ℕ) (d : ℕ)
    (hcd : s.current_day = some d) (hne : dayOf nd ≠ d) :
    boundary s flag nd =
      ({ s with
          next_date := some nd
          current_day := some (dayOf nd) },
        false, [ClockEvent.eod d]) := by
  unfold boundary
  rw [hcd]
  simp [hne]

theorem boundary_some_eq (s : DataClient) (flag : Bool) (nd : ℕ) (d : ℕ)
    (hcd : s.current_day = some d) (heq : dayOf nd = d) :
    boundary s flag nd = ({ s with next_date := some nd }, flag, []) := by
  unfold boundary
  rw [hcd]
  simp [heq]

theorem advanceWith_pub (s1 : DataClient) (flag1 : Bool)
    (evs : List ClockEvent) (nd : ℕ) (env : Bool)
    (h : (flag1 || env) = true) :
    advanceWith s1 flag1 evs nd env =
      (true, { s1 with current_date_index := s1.current_date_index + 1 },
        true, evs ++ [ClockEvent.bars nd (set_market_data s1)]) := by
  simp [advanceWith, h]

theorem advanceWith_stall (s1 : DataClient) (flag1 : Bool)
    (evs : List ClockEvent) (nd : ℕ) (env : Bool)
    (h : (flag1 || env) = false) :
    advanceWith s1 flag1 evs nd env = (true, s1, false, evs) := by
  simp [advanceWith, h]

theorem data_stream_in_range (s : DataClient) (flag env : Bool)
    (h : s.current_date_index < s.unique_timestamps.length) :
    data_stream s flag env =
      advanceWith
        (boundary s flag (s.unique_timestamps.get ⟨s.current_date_index, h⟩)).1
        (boundary s flag
          (s.unique_timestamps.get ⟨s.current_date_index, h⟩)).2.1
        (boundary s flag
          (s.unique_timestamps.get ⟨s.current_date_index, h⟩)).2.2
        (s.unique_timestamps.get ⟨s.current_date_index, h⟩) env := by
  unfold data_stream
  rw [dif_pos h]

theorem alookup_aerase_self {α β : Type} [DecidableEq α]
    (l : List (α × β)) (k : α) : alookup (aerase l k) k = none := by
  induction l with
  | nil => rfl
  | cons p rest ih =>
    by_cases hpk : p.1 = k
    · simpa [aerase, hpk] using ih
    · simpa [aerase, alookup, hpk] using ih

theorem alookup_ainsert_self {α β : Type} [DecidableEq α]
    (l : List (α × β)) (k : α) (v : β) : alookup (ainsert l k v) k = some v := by
  simp [ainsert, alookup]

theorem mem_sadd_self (l : List String) (x : String) : x ∈ sadd l x := by
  unfold sadd
  split
  · assumption
  · exact List.mem_cons_self x l

/-! ## Claim theorems: portfolio server -/

/-- C9: a terminal-status (`Filled` or `Cancelled`) order update whose id is
not in the active-orders mapping leaves the whole portfolio state unchanged —
in particular no pending marker is set for an unknown filled order — while
still publishing exactly one ORDER_UPDATE notification. -/
theorem c9_terminal_unknown_id_frame (s : PortfolioServer)
    (order : ActiveOrder)
    (hterm : order.status = "Filled" ∨ order.status = "Cancelled")
    (habs : alookup s.active_orders order.orderId = none) :
    update_orders s order = (s, [EventType.ORDER_UPDATE]) := by
  rcases hterm with h | h <;> simp [update_orders, habs, h]

theorem c9_terminal_unknown_id_frame_witness :
    update_orders
      { positions := []
        active_orders := []
        pending_positions_update := []
        account := { capital := 0 } }
      { orderId := 7, symbol := ("AAPL"), status := ("Filled"), quantity := 1 } =
      ({ positions := []
         active_orders := []
         pending_positions_update := []
         account := { capital := 0 } }, [EventType.ORDER_UPDATE]) :=
  c9_terminal_unknown_id_frame _ _ (Or.inl rfl) rfl

/-- C5: inserting an order with a non-terminal status and then updating it to
`Filled` removes the id from active orders and marks the instrument pending;
inserting and then updating to `Cancelled` removes the id without touching the
pending markers. -/
theorem c5_order_lifecycle (s : PortfolioServer) (id : ℕ) (sym : String)
    (q1 q2 q3 : ℚ) (st : String)
    (h1 : st ≠ "Cancelled") (h2 : st ≠ "Filled") :
    alookup ((update_orders (update_orders s ⟨id, sym, st, q1⟩).1
        ⟨id, sym, ("Filled"), q2⟩).1.active_orders) id = none ∧
    sym ∈ ((update_orders (update_orders s ⟨id, sym, st, q1⟩).1
        ⟨id, sym, ("Filled"), q2⟩).1.pending_positions_update) ∧
    alookup ((update_orders (update_orders s ⟨id, sym, st, q1⟩).1
        ⟨id, sym, ("Cancelled"), q3⟩).1.active_orders) id = none ∧
    ((update_orders (update_orders s ⟨id, sym, st, q1⟩).1
        ⟨id, sym, ("Cancelled"), q3⟩).1.pending_positions_update) =
      ((update_orders s ⟨id, sym, st, q1⟩).1.pending_positions_update) := by
  have hopen : (update_orders s ⟨id, sym, st, q1⟩).1 =
      { s with active_orders := ainsert s.active_orders id ⟨id, sym, st, q1⟩ } := by
    simp [update_orders, h1, h2]
  have hsome : (alookup (ainsert s.active_orders id ⟨id, sym, st, q1⟩)
      id).isSome := by
    simp [alookup_ainsert_self]
  refine ⟨?_, ?_, ?_, ?_⟩
  · rw [hopen]
    simp [update_orders, hsome, alookup_aerase_self]
  · rw [hopen]
    simp [update_orders, hsome, mem_sadd_self]
  · rw [hopen]
    simp [update_orders, hsome, alookup_aerase_self]
  · rw [hopen]
    simp [update_orders, hsome]

theorem c5_order_lifecycle_witness :
    alookup ((update_orders (update_orders ⟨[], [], [], ⟨0⟩⟩
        ⟨3, ("ES"), ("PreSubmitted"), 2⟩).1
        ⟨3, ("ES"), ("Filled"), 2⟩).1.active_orders) 3 = none ∧
    ("ES") ∈ ((update_orders (update_orders ⟨[], [], [], ⟨0⟩⟩
        ⟨3, ("ES"), ("PreSubmitted"), 2⟩).1
        ⟨3, ("ES"), ("Filled"), 2⟩).1.pending_positions_update) :=
  have h := c5_order_lifecycle ⟨[], [], [], ⟨0⟩⟩ 3 ("ES") 2 2 2
    ("PreSubmitted") (by decide) (by decide)
  ⟨h.1, h.2.1⟩

/-- C3 (code evaluated at the failing input): with a stored AAPL position of
quantity 5 and an incoming position of quantity 3 (same remaining fields), the
source `update_positions` returns early — the stored position is NOT replaced
and NO notification is published, because the early-return branch only checks
key membership (its comment claims it handles an equal duplicate).  The claim
(and the spec) say the stored position must be replaced, the pending marker
cleared, and exactly one PositionUpdate published. -/
theorem c3_update_positions_no_replace :
    update_positions
      ⟨[(("AAPL"), ⟨5, 10⟩)], [], [("AAPL")], ⟨100⟩⟩ ("AAPL") ⟨3, 10⟩ =
      (⟨[(("AAPL"), ⟨5, 10⟩)], [], [("AAPL")], ⟨100⟩⟩, []) := by
  decide

/-- C4 (code evaluated at the failing input): with no stored position for
AAPL, the source `update_positions` stores an incoming zero-quantity position
(and publishes a PositionUpdate), violating the claimed invariant that a
quantity-0 position is never stored; the removal half of the claim (a stored
position deleted by a zero-quantity update) does hold. -/
theorem c4_zero_quantity_stored :
    (update_positions ⟨[], [], [], ⟨100⟩⟩ ("AAPL") ⟨0, 10⟩).1.positions =
      [(("AAPL"), (⟨0, 10⟩ : Position))] ∧
    (update_positions ⟨[], [], [], ⟨100⟩⟩ ("AAPL") ⟨0, 10⟩).2 =
      [EventType.POSITION_UPDATE] ∧
    (update_positions ⟨[(("AAPL"), ⟨5, 10⟩)], [], [], ⟨100⟩⟩
      ("AAPL") ⟨0, 10⟩).1.positions = [] := by
  refine ⟨by decide, by decide, by decide⟩

/-- C2: a signal any of whose instruments appears in the portfolio's
active-order tickers — which are exactly the union of the tickers with an
active order and the tickers with a pending position-update marker — is
dropped whole: `handle_event` publishes no ORDER_CREATED events and raises no
error (and, the order manager being stateless, no engine state is touched). -/
theorem c2_conflict_blocking (env : OrderManagerEnv) (ps : PortfolioServer)
    (event : SignalEvent)
    (h : ∃ trade ∈ event.instructions,
      trade.instrument ∈ get_active_order_tickers ps) :
    handle_event env ps EventType.SIGNAL event = Except.ok [] ∧
    (∀ x, x ∈ get_active_order_tickers ps ↔
      ((∃ p ∈ ps.active_orders, p.2.symbol = x) ∨
        x ∈ ps.pending_positions_update)) := by
  constructor
  · have hany : event.instructions.any
        (fun trade => trade.instrument ∈ get_active_order_tickers ps) = true := by
      rcases h with ⟨trade, hmem, hin⟩
      exact List.any_eq_true.mpr ⟨trade, hmem, by simpa using hin⟩
    simp [handle_event, hany]
  · intro x
    simp [get_active_order_tickers, List.mem_dedup, List.mem_append,
      List.mem_map]

theorem c2_conflict_blocking_witness :
    handle_event ⟨fun _ => ⟨0, (""), fun _ _ => 0⟩, fun _ => 0⟩
      ⟨[], [], [("AAPL")], ⟨100⟩⟩
      EventType.SIGNAL
      ⟨0, [⟨("AAPL"), Action.LONG, 1, 1,
        Except.ok ⟨("BUY"), ("MKT"), 1, 0, 0⟩⟩]⟩ = Except.ok [] :=
  (c2_conflict_blocking _ _ _
    ⟨⟨("AAPL"), Action.LONG, 1, 1, Except.ok ⟨("BUY"), ("MKT"), 1, 0, 0⟩⟩,
      List.mem_singleton.mpr rfl, by decide⟩).1

/-! ## Claim theorems: order construction -/

/-- C8: order construction fails exactly on an invalid contract parameter —
any order with quantity 0, a limit order with limit price ≤ 0, a stop order
with stop price ≤ 0 — and on success the stored quantity is the (positive)
absolute value, with the signed quantity recovered from the action: positive
for the buy-type actions (LONG, COVER), negative for the sell-type actions
(SHORT, SELL). -/
theorem c8_order_validation (a : Action) (q lp ap : ℚ) :
    ((∃ o, MarketOrder a q = Except.ok o) ↔ q ≠ 0) ∧
    ((∃ o, LimitOrder a q lp = Except.ok o) ↔ (q ≠ 0 ∧ 0 < lp)) ∧
    ((∃ o, StopLoss a q ap = Except.ok o) ↔ (q ≠ 0 ∧ 0 < ap)) ∧
    (∀ o, (MarketOrder a q = Except.ok o ∨ LimitOrder a q lp = Except.ok o ∨
        StopLoss a q ap = Except.ok o) →
      (0 < o.totalQuantity ∧
        ((a = Action.LONG ∨ a = Action.COVER) → o.quantity = |q|) ∧
        ((a = Action.SHORT ∨ a = Action.SELL) → o.quantity = -|q|))) := by
  refine ⟨?_, ?_, ?_, ?_⟩
  · by_cases hq : q = 0 <;> simp [MarketOrder, BaseOrder, hq]
  · by_cases hlp : lp ≤ 0
    · simp only [LimitOrder, if_pos hlp]
      simp [not_lt.mpr hlp]
    · by_cases hq : q = 0 <;>
        simp [LimitOrder, BaseOrder, hlp, hq, not_le.mp hlp]
  · by_cases hap : ap ≤ 0
    · simp only [StopLoss, if_pos hap]
      simp [not_lt.mpr hap]
    · by_cases hq : q = 0 <;>
        simp [StopLoss, BaseOrder, hap, hq, not_le.mp hap]
  · intro o ho
    have hfields : o.totalQuantity = |q| ∧ o.action = a.to_broker_standard ∧
        q ≠ 0 := by
      rcases ho with ho | ho | ho
      · by_cases hq : q = 0 <;> simp [MarketOrder, BaseOrder, hq] at ho
        exact ⟨by simp [← ho], by simp [← ho], hq⟩
      · by_cases hlp : lp ≤ 0
        · simp [LimitOrder, hlp] at ho
        · by_cases hq : q = 0 <;> simp [LimitOrder, BaseOrder, hlp, hq] at ho
          exact ⟨by simp [← ho], by simp [← ho], hq⟩
      · by_cases hap : ap ≤ 0
        · simp [StopLoss, hap] at ho
        · by_cases hq : q = 0 <;> simp [StopLoss, BaseOrder, hap, hq] at ho
          exact ⟨by simp [← ho], by simp [← ho], hq⟩
    refine ⟨hfields.1 ▸ abs_pos.mpr hfields.2.2, ?_, ?_⟩
    · rintro (rfl | rfl) <;>
        simp [IBOrder.quantity, hfields.2.1, hfields.1,
          Action.to_broker_standard]
    · rintro (rfl | rfl) <;>
        simp [IBOrder.quantity, hfields.2.1, hfields.1,
          Action.to_broker_standard]

theorem c8_order_validation_witness :
    (∃ o, MarketOrder Action.LONG 2 = Except.ok o) ∧
    (¬ ∃ o, LimitOrder Action.SELL 2 0 = Except.ok o) ∧
    (¬ ∃ o, StopLoss Action.SHORT 0 5 = Except.ok o) :=
  ⟨(c8_order_validation Action.LONG 2 1 1).1.mpr (by decide),
    fun h => by
      have := ((c8_order_validation Action.SELL 2 0 1).2.1.mp h).2
      exact absurd this (by decide),
    fun h => by
      have := ((c8_order_validation Action.SHORT 0 1 5).2.2.1.mp h).1
      exact this rfl⟩

/-! ## Claim theorems: admission control -/

theorem admitOrders_of_le (total K : ℚ) (h : total ≤ K) :
    ∀ orders : List OrderDetails,
      admitOrders total K orders = orders.map set_order := by
  intro orders
  induction orders with
  | nil => rfl
  | cons od rest ih => simp [admitOrders, h, ih]

theorem admitOrders_of_gt (total K : ℚ) (h : K < total) :
    ∀ orders : List OrderDetails,
      admitOrders total K orders =
        (orders.filter (fun od => decide (od.action = Action.SELL ∨
          od.action = Action.COVER))).map set_order := by
  intro orders
  induction orders with
  | nil => rfl
  | cons od rest ih =>
    by_cases hexit : od.action = Action.SELL ∨ od.action = Action.COVER
    · have hcond : od.action = Action.SELL ∨ od.action = Action.COVER ∨
          total ≤ K :=
        hexit.elim (fun hc => Or.inl hc) (fun hc => Or.inr (Or.inl hc))
      simp only [admitOrders, if_pos hcond]
      rw [ih]
      simp [List.filter_cons, hexit]
    · have hcond : ¬(od.action = Action.SELL ∨ od.action = Action.COVER ∨
          total ≤ K) := by
        rintro (hc | hc | hc)
        · exact hexit (Or.inl hc)
        · exact hexit (Or.inr hc)
        · exact absurd hc (not_le.mpr h)
      simp only [admitOrders, if_neg hcond]
      rw [ih]
      simp [List.filter_cons, hexit]

theorem buildOrders_actions (env : OrderManagerEnv) (timestamp : ℕ) :
    ∀ (instrs : List SignalInstruction) (orders : List OrderDetails)
      (total : ℚ),
      buildOrders env timestamp instrs = Except.ok (orders, total) →
      orders.map OrderDetails.action = instrs.map SignalInstruction.action := by
  intro instrs
  induction instrs with
  | nil =>
    intro orders total h
    simp only [buildOrders, Except.ok.injEq, Prod.mk.injEq] at h
    rw [← h.1]
    rfl
  | cons trade rest ih =>
    intro orders total h
    simp only [buildOrders] at h
    cases hto : trade.toOrder with
    | error e => rw [hto] at h; exact absurd h (by simp)
    | ok order =>
      rw [hto] at h
      cases hrec : buildOrders env timestamp rest with
      | error e => rw [hrec] at h; exact absurd h (by simp)
      | ok pr =>
        rw [hrec] at h
        simp only [Except.ok.injEq, Prod.mk.injEq] at h
        rw [← h.1]
        simp [ih pr.1 pr.2 (by rw [hrec])]

/-- C1 (amended): for a signal whose instructions all convert to orders, let C
be the batch total capital requirement — the sum of the order costs of ALL
instructions in the signal, exit legs included — and K the portfolio capital.
If C ≤ K every instruction is admitted (one ORDER_CREATED event each, in
order); if C > K exactly the exit-type instructions (SELL, COVER) are
admitted; and the same batch total C is used for every instruction of the
batch (the admission loop never recomputes it).  The candidate orders
correspond one-to-one, action for action, to the signal's instructions. -/
theorem c1_admission_batch_total (env : OrderManagerEnv) (ps : PortfolioServer)
    (timestamp : ℕ) (instrs : List SignalInstruction)
    (orders : List OrderDetails) (total : ℚ)
    (hok : buildOrders env timestamp instrs = Except.ok (orders, total)) :
    (total ≤ ps.capital →
      handle_signal env ps timestamp instrs =
        Except.ok (orders.map set_order)) ∧
    (ps.capital < total →
      handle_signal env ps timestamp instrs =
        Except.ok ((orders.filter (fun od => decide (od.action = Action.SELL ∨
          od.action = Action.COVER))).map set_order)) ∧
    orders.map OrderDetails.action = instrs.map SignalInstruction.action := by
  refine ⟨?_, ?_, buildOrders_actions env timestamp instrs orders total hok⟩
  · intro hle
    simp [handle_signal, hok, admitOrders_of_le total ps.capital hle]
  · intro hgt
    simp [handle_signal, hok, admitOrders_of_gt total ps.capital hgt]

/-- C1 counterexample to the claim as stated: a signal with one entry leg
(LONG 1 of A, order cost 50) and one exit leg (SELL 1 of B, order cost 60)
against capital 100.  The total ENTRY cost is 50 ≤ 100, yet the entry is NOT
admitted — only the SELL event is published — because the code's batch total
(110) includes the exit leg's cost and exceeds the capital. -/
theorem c1_entry_cost_counterexample :
    buildOrders
      ⟨fun t => if t = "A" then ⟨0, ("A"), fun q p => |q| * p⟩
        else ⟨1, ("B"), fun q p => |q| * p⟩, fun id => if id = 0 then 50 else 60⟩
      0 [⟨("A"), Action.LONG, 1, 1, Except.ok ⟨("BUY"), ("MKT"), 1, 0, 0⟩⟩] =
      Except.ok ([⟨0, 1, 1, Action.LONG, ("A"), ⟨("BUY"), ("MKT"), 1, 0, 0⟩⟩],
        50) ∧
    (50 : ℚ) ≤ (100 : ℚ) ∧
    handle_signal
      ⟨fun t => if t = "A" then ⟨0, ("A"), fun q p => |q| * p⟩
        else ⟨1, ("B"), fun q p => |q| * p⟩, fun id => if id = 0 then 50 else 60⟩
      ⟨[], [], [], ⟨100⟩⟩ 0
      [⟨("A"), Action.LONG, 1, 1, Except.ok ⟨("BUY"), ("MKT"), 1, 0, 0⟩⟩,
        ⟨("B"), Action.SELL, 1, 2, Except.ok ⟨("SELL"), ("MKT"), 1, 0, 0⟩⟩] =
      Except.ok [⟨0, 1, 2, Action.SELL, ("B"), ⟨("SELL"), ("MKT"), 1, 0, 0⟩⟩] := by
  have hbuild2 : buildOrders
      ⟨fun t => if t = "A" then ⟨0, ("A"), fun q p => |q| * p⟩
        else ⟨1, ("B"), fun q p => |q| * p⟩, fun id => if id = 0 then 50 else 60⟩
      0 [⟨("A"), Action.LONG, 1, 1, Except.ok ⟨("BUY"), ("MKT"), 1, 0, 0⟩⟩,
        ⟨("B"), Action.SELL, 1, 2, Except.ok ⟨("SELL"), ("MKT"), 1, 0, 0⟩⟩] =
      Except.ok ([⟨0, 1, 1, Action.LONG, ("A"), ⟨("BUY"), ("MKT"), 1, 0, 0⟩⟩,
        ⟨0, 1, 2, Action.SELL, ("B"), ⟨("SELL"), ("MKT"), 1, 0, 0⟩⟩],
        (110 : ℚ)) := by
    simp [buildOrders, IBOrder.quantity]
    norm_num
  refine ⟨?_, by norm_num, ?_⟩
  · simp [buildOrders, IBOrder.quantity]
  · simp only [handle_signal, hbuild2, PortfolioServer.capital]
    rw [admitOrders_of_gt 110 100 (by norm_num)]
    rfl

theorem c1_admission_batch_total_witness :
    handle_signal
      ⟨fun _ => ⟨0, ("A"), fun q p => q * p⟩, fun _ => 10⟩
      ⟨[], [], [], ⟨100⟩⟩ 0
      [⟨("A"), Action.LONG, 1, 1, Except.ok ⟨("BUY"), ("MKT"), 2, 0, 0⟩⟩] =
      Except.ok [⟨0, 1, 1, Action.LONG, ("A"), ⟨("BUY"), ("MKT"), 2, 0, 0⟩⟩] :=
  have h := c1_admission_batch_total
    ⟨fun _ => ⟨0, ("A"), fun q p => q * p⟩, fun _ => 10⟩
    ⟨[], [], [], ⟨100⟩⟩ 0
    [⟨("A"), Action.LONG, 1, 1, Except.ok ⟨("BUY"), ("MKT"), 2, 0, 0⟩⟩]
    [⟨0, 1, 1, Action.LONG, ("A"), ⟨("BUY"), ("MKT"), 2, 0, 0⟩⟩] 20
    (by norm_num [buildOrders, IBOrder.quantity])
  h.1 (by norm_num [PortfolioServer.capital])

/-! ## Claim theorems: market data clock -/

/-- C10: while the clock sits in the end-of-day wait state — the flag is
down, and the day transition for the timestamp under the cursor has already
been processed, so `current_day` is that timestamp's day and `next_date`
already points at it — a call that observes a non-empty event queue
(`env_sets_flag = false`) returns `true` while publishing nothing: no market
data, no EOD event, and the state (cursor, current day, data) is exactly
unchanged, so the same timestamp is retried on the next call.  A `true`
return therefore does not imply a bar batch was published. -/
theorem c10_wait_returns_true_without_publishing (s : DataClient) (ts : ℕ)
    (h : s.current_date_index < s.unique_timestamps.length)
    (hts : s.unique_timestamps.get ⟨s.current_date_index, h⟩ = ts)
    (hday : s.current_day = some (dayOf ts))
    (hnd : s.next_date = some ts) :
    data_stream s false false = (true, s, false, []) := by
  have heta : ({ s with next_date := some ts } : DataClient) = s := by
    cases s
    simp_all
  rw [data_stream_in_range s false false h, hts,
    boundary_some_eq s false ts (dayOf ts) hday rfl,
    advanceWith_stall _ false _ _ false rfl, heta]

theorem c10_wait_returns_true_without_publishing_witness :
    data_stream
      ⟨[⟨86400000000000, ("ES"), 1, 1, 1, 1, 1⟩], [86400000000000],
        some 86400000000000, 0, some 1⟩ false false =
      (true,
        ⟨[⟨86400000000000, ("ES"), 1, 1, 1, 1, 1⟩], [86400000000000],
          some 86400000000000, 0, some 1⟩, false, []) :=
  c10_wait_returns_true_without_publishing _ 86400000000000
    (by decide) (by decide) (by decide) (by decide)

/-! ## Clock run lemmas -/

theorem uniqueSorted_cons_dup (a : ℕ) (rest : List ℕ) :
    uniqueSorted (a :: a :: rest) = uniqueSorted (a :: rest) := by
  simp [uniqueSorted]

theorem uniqueSorted_cons_ne {a b : ℕ} (rest : List ℕ) (hab : a ≠ b) :
    uniqueSorted (a :: b :: rest) = a :: uniqueSorted (b :: rest) := by
  simp [uniqueSorted, hab]

theorem mem_uniqueSorted : ∀ (l : List ℕ) (x : ℕ),
    x ∈ uniqueSorted l ↔ x ∈ l := by
  intro l
  induction l with
  | nil => simp [uniqueSorted]
  | cons a rest ih =>
    cases rest with
    | nil => simp [uniqueSorted]
    | cons b rest2 =>
      intro x
      by_cases hab : a = b
      · subst hab
        rw [uniqueSorted_cons_dup, ih x]
        simp only [List.mem_cons]
        tauto
      · rw [uniqueSorted_cons_ne rest2 hab]
        simp only [List.mem_cons]
        rw [ih x]
        simp only [List.mem_cons]

theorem uniqueSorted_sorted : ∀ l : List ℕ, l.Sorted (· ≤ ·) →
    (uniqueSorted l).Sorted (· ≤ ·) := by
  intro l
  induction l with
  | nil => intro _; simp [uniqueSorted]
  | cons a rest ih =>
    intro hs
    cases rest with
    | nil => exact hs
    | cons b rest2 =>
      rw [List.sorted_cons] at hs
      by_cases hab : a = b
      · subst hab
        rw [uniqueSorted_cons_dup]
        exact ih hs.2
      · rw [uniqueSorted_cons_ne rest2 hab, List.sorted_cons]
        exact ⟨fun c hc => hs.1 c ((mem_uniqueSorted _ c).mp hc), ih hs.2⟩

theorem sortRows_sorted (rows : List Row) :
    (sortRows rows).Sorted (fun a b => a.timestamp ≤ b.timestamp) := by
  have h := @List.sorted_mergeSort Row
    (fun a b : Row => decide (a.timestamp ≤ b.timestamp))
    (fun a b c hab hbc => by
      simp only [decide_eq_true_eq] at *
      exact le_trans hab hbc)
    (fun a b => by
      simp only [Bool.or_eq_true, decide_eq_true_eq]
      exact le_total a.timestamp b.timestamp)
    rows
  exact h.imp (fun hab => by simpa using hab)

theorem timestamps_sorted (rows : List Row) :
    ((sortRows rows).map Row.timestamp).Sorted (· ≤ ·) := by
  rw [List.Sorted, List.pairwise_map]
  exact sortRows_sorted rows

theorem initClock_sorted (rows : List Row) :
    (initClock rows).unique_timestamps.Sorted (· ≤ ·) :=
  uniqueSorted_sorted _ (timestamps_sorted rows)

theorem sorted_get_le {l : List ℕ} (hs : l.Sorted (· ≤ ·)) {i j : ℕ}
    (hij : i ≤ j) (hj : j < l.length) :
    l.get ⟨i, lt_of_le_of_lt hij hj⟩ ≤ l.get ⟨j, hj⟩ := by
  rcases lt_or_eq_of_le hij with h | h
  · exact hs.rel_get_of_lt (Fin.mk_lt_mk.mpr h)
  · subst h
    exact le_refl _

theorem dayOf_mono {a b : ℕ} (h : a ≤ b) : dayOf a ≤ dayOf b :=
  Nat.div_le_div_right h

theorem foldl_max_bounds (rows : List Row) : ∀ init : ℕ,
    init ≤ rows.foldl (fun m r => max m r.timestamp) init ∧
    ∀ r ∈ rows, r.timestamp ≤ rows.foldl (fun m r => max m r.timestamp) init := by
  induction rows with
  | nil => intro init; exact ⟨le_refl _, by simp⟩
  | cons a rest ih =>
    intro init
    refine ⟨?_, ?_⟩
    · exact le_trans (le_max_left init a.timestamp)
        (ih (max init a.timestamp)).1
    · intro r hr
      rcases List.mem_cons.mp hr with rfl | hr2
      · exact le_trans (le_max_right init r.timestamp) (ih _).1
      · exact (ih _).2 r hr2

theorem data_stream_exhausted (s : DataClient) (flag env : Bool)
    (h : s.unique_timestamps.length ≤ s.current_date_index) :
    data_stream s flag env = (false, s, flag, []) := by
  simp [data_stream, Nat.not_lt.mpr h]

theorem runResults_exhausted (s : DataClient) (flag : Bool)
    (h : s.unique_timestamps.length ≤ s.current_date_index) :
    ∀ envs : List Bool,
      runResults s flag envs = List.replicate envs.length false := by
  intro envs
  induction envs with
  | nil => rfl
  | cons e rest ih =>
    simp [runResults, data_stream_exhausted s flag e h, ih, List.replicate]

theorem runClock_exhausted (s : DataClient) (flag : Bool)
    (h : s.unique_timestamps.length ≤ s.current_date_index) :
    ∀ envs : List Bool, runClock s flag envs = (s, flag, []) := by
  intro envs
  induction envs with
  | nil => rfl
  | cons e rest ih =>
    simp [runClock, data_stream_exhausted s flag e h, ih]

theorem dayInv_incr (s1 : DataClient) (hinv : DayInv s1) :
    DayInv { s1 with current_date_index := s1.current_date_index + 1 } := by
  intro d hd
  obtain ⟨j, hj, hji, hdj⟩ := hinv d hd
  exact ⟨j, hj, Nat.le_succ_of_le hji, hdj⟩

theorem data_stream_dayInv (s : DataClient) (flag env : Bool)
    (hsort : s.unique_timestamps.Sorted (· ≤ ·)) (hinv : DayInv s) :
    ((data_stream s flag env).2.1.unique_timestamps = s.unique_timestamps ∧
      DayInv (data_stream s flag env).2.1) ∧
    (∀ d, ClockEvent.eod d ∈ (data_stream s flag env).2.2.2 →
      ∃ t ∈ s.unique_timestamps, d < dayOf t) := by
  by_cases h : s.current_date_index < s.unique_timestamps.length
  case neg =>
    rw [data_stream_exhausted s flag env (Nat.not_lt.mp h)]
    exact ⟨⟨rfl, hinv⟩, by simp⟩
  case pos =>
  rw [data_stream_in_range s flag env h]
  rcases hcd : s.current_day with _ | prev
  · rw [boundary_none s flag _ hcd]
    have hdinv : DayInv { s with
        next_date := some (s.unique_timestamps.get ⟨s.current_date_index, h⟩)
        current_day := some (dayOf
          (s.unique_timestamps.get ⟨s.current_date_index, h⟩)) } := by
      intro d hd
      simp only [Option.some.injEq] at hd
      exact ⟨s.current_date_index, h, le_refl _, hd.symm⟩
    cases hpub : (flag || env)
    · rw [advanceWith_stall _ _ _ _ _ hpub]
      exact ⟨⟨rfl, hdinv⟩, by simp⟩
    · rw [advanceWith_pub _ _ _ _ _ hpub]
      exact ⟨⟨rfl, dayInv_incr _ hdinv⟩, by simp⟩
  · by_cases hne : dayOf (s.unique_timestamps.get ⟨s.current_date_index, h⟩)
        ≠ prev
    · have hlt : prev <
          dayOf (s.unique_timestamps.get ⟨s.current_date_index, h⟩) := by
        obtain ⟨j, hj, hji, hdj⟩ := hinv prev hcd
        rcases lt_or_eq_of_le hji with hjlt | hjeq
        · have hts := sorted_get_le hsort (le_of_lt hjlt) h
          have hmono := dayOf_mono hts
          rw [← hdj] at hmono
          exact lt_of_le_of_ne hmono (fun he => hne he.symm)
        · subst hjeq
          exact absurd hdj.symm hne
      rw [boundary_some_ne s flag _ prev hcd hne]
      have hdinv : DayInv { s with
          next_date := some (s.unique_timestamps.get ⟨s.current_date_index, h⟩)
          current_day := some (dayOf
            (s.unique_timestamps.get ⟨s.current_date_index, h⟩)) } := by
        intro d hd
        simp only [Option.some.injEq] at hd
        exact ⟨s.current_date_index, h, le_refl _, hd.symm⟩
      have hev : ∀ d, ClockEvent.eod d ∈ [ClockEvent.eod prev] →
          ∃ t ∈ s.unique_timestamps, d < dayOf t := by
        intro d hd
        simp only [List.mem_singleton, ClockEvent.eod.injEq] at hd
        subst hd
        exact ⟨s.unique_timestamps.get ⟨s.current_date_index, h⟩,
          List.get_mem _ _ _, hlt⟩
      cases hpub : (false || env)
      · rw [advanceWith_stall _ _ _ _ _ hpub]
        exact ⟨⟨rfl, hdinv⟩, hev⟩
      · rw [advanceWith_pub _ _ _ _ _ hpub]
        refine ⟨⟨rfl, dayInv_incr _ hdinv⟩, ?_⟩
        intro d hd
        simp only [List.mem_append, List.mem_singleton] at hd
        rcases hd with hd | hd
        · exact hev d (List.mem_singleton.mpr hd)
        · exact absurd hd (by simp)
    · rw [not_not] at hne
      rw [boundary_some_eq s flag _ prev hcd hne]
      have hdinv : DayInv { s with
          next_date := some (s.unique_timestamps.get
            ⟨s.current_date_index, h⟩) } := by
        intro d hd
        obtain ⟨j, hj, hji, hdj⟩ := hinv d hd
        exact ⟨j, hj, hji, hdj⟩
      cases hpub : (flag || env)
      · rw [advanceWith_stall _ _ _ _ _ hpub]
        exact ⟨⟨rfl, hdinv⟩, by simp⟩
      · rw [advanceWith_pub _ _ _ _ _ hpub]
        exact ⟨⟨rfl, dayInv_incr _ hdinv⟩, by simp⟩

theorem runClock_dayInv (envs : List Bool) : ∀ (s : DataClient) (flag : Bool),
    s.unique_timestamps.Sorted (· ≤ ·) → DayInv s →
    ∀ d, ClockEvent.eod d ∈ (runClock s flag envs).2.2 →
      ∃ t ∈ s.unique_timestamps, d < dayOf t := by
  induction envs with
  | nil => intro s flag _ _ d hd; simp [runClock] at hd
  | cons e rest ih =>
    intro s flag hsort hinv d hd
    obtain ⟨⟨hT, hinv2⟩, hevs⟩ := data_stream_dayInv s flag e hsort hinv
    simp only [runClock, List.mem_append] at hd
    rcases hd with hd | hd
    · exact hevs d hd
    · have := ih (data_stream s flag e).2.1 (data_stream s flag e).2.2.1
        (hT ▸ hsort) hinv2 d hd
      rwa [hT] at this

theorem countEod_eq_zero_of_not_mem (day : ℕ) (evs : List ClockEvent)
    (h : ClockEvent.eod day ∉ evs) : countEod day evs = 0 := by
  simp only [countEod, List.length_eq_zero, List.filter_eq_nil_iff]
  intro e he
  simp only [decide_eq_true_eq]
  intro heq
  exact h (heq ▸ he)

/-- C7: once the cursor has passed the last distinct timestamp, every further
`advance()` call returns false and emits nothing — permanently, for any
sequence of calls — and along any driver run from the initialized clock no
EndOfDay event is ever emitted for the final calendar day of the data set
(the day of the maximum timestamp). -/
theorem c7_exhaustion_no_final_eod (s : DataClient) (flag : Bool)
    (envs : List Bool) (rows : List Row) (flag2 : Bool) (envs2 : List Bool)
    (h : s.unique_timestamps.length ≤ s.current_date_index) :
    runResults s flag envs = List.replicate envs.length false ∧
    (runClock s flag envs).2.2 = [] ∧
    countEod (dayOf (rows.foldl (fun m r => max m r.timestamp) 0))
      ((runClock (initClock rows) flag2 envs2).2.2) = 0 := by
  refine ⟨runResults_exhausted s flag h envs, ?_, ?_⟩
  · rw [runClock_exhausted s flag h envs]
  · apply countEod_eq_zero_of_not_mem
    intro hmem
    obtain ⟨t, htmem, htlt⟩ := runClock_dayInv envs2 (initClock rows) flag2
      (initClock_sorted rows) (fun d hd => by simp [initClock] at hd) _ hmem
    have ht1 : t ∈ (sortRows rows).map Row.timestamp :=
      (mem_uniqueSorted _ t).mp htmem
    obtain ⟨r, hr, hrt⟩ := List.mem_map.mp ht1
    have hr2 : r ∈ rows := by
      have := hr
      unfold sortRows at this
      exact List.mem_mergeSort.mp this
    have hle : t ≤ rows.foldl (fun m r => max m r.timestamp) 0 := by
      rw [← hrt]
      exact (foldl_max_bounds rows 0).2 r hr2
    exact absurd (dayOf_mono hle) (not_le.mpr htlt)

theorem c7_exhaustion_no_final_eod_witness :
    runResults ⟨[], [], none, 0, none⟩ true [false, true] =
      List.replicate 2 false ∧
    (runClock ⟨[], [], none, 0, none⟩ true [false, true]).2.2 = [] ∧
    countEod (dayOf (([⟨0, ("A"), 1, 1, 1, 1, 1⟩] :
        List Row).foldl (fun m r => max m r.timestamp) 0))
      ((runClock (initClock [⟨0, ("A"), 1, 1, 1, 1, 1⟩]) true [true]).2.2) = 0 :=
  c7_exhaustion_no_final_eod ⟨[], [], none, 0, none⟩ true [false, true]
    [⟨0, ("A"), 1, 1, 1, 1, 1⟩] true [true] (by decide)

/-! ## Day-boundary ordering (C6) -/

theorem countEod_barsOnly (d : ℕ) (evs : List ClockEvent)
    (h : barsOnly evs) : countEod d evs = 0 := by
  apply countEod_eq_zero_of_not_mem
  intro hmem
  obtain ⟨ts, b, heq⟩ := h _ hmem
  exact absurd heq (by simp)

theorem allBarsOn_barsOnly {d : ℕ} {evs : List ClockEvent}
    (h : allBarsOn d evs) : barsOnly evs :=
  fun e he => (h e he).elim (fun ts hts => hts.elim (fun b hb => ⟨ts, b, hb.1⟩))

theorem countEod_decomp (D1 : ℕ) (pre post : List ClockEvent)
    (hpre : barsOnly pre) (hpost : barsOnly post) :
    countEod D1 (pre ++ ClockEvent.eod D1 :: post) = 1 := by
  unfold countEod
  rw [List.filter_append, List.length_append]
  have h1 : (pre.filter (fun e => e = ClockEvent.eod D1)).length = 0 :=
    countEod_barsOnly D1 pre hpre
  have h2 : (post.filter (fun e => e = ClockEvent.eod D1)).length = 0 :=
    countEod_barsOnly D1 post hpost
  rw [h1]
  simp [List.filter_cons, h2]

theorem epb_seen_true (d1 d2 : ℕ) : ∀ evs : List ClockEvent,
    eodPrecedesBars d1 d2 evs true = true := by
  intro evs
  induction evs with
  | nil => rfl
  | cons e rest ih =>
    cases e with
    | eod d => simpa [eodPrecedesBars] using ih
    | bars ts b => simpa [eodPrecedesBars] using ih

theorem epb_allBarsOn (d1 d2 : ℕ) (hne : d1 ≠ d2) :
    ∀ (pre rest : List ClockEvent), allBarsOn d1 pre →
    ∀ seen : Bool, eodPrecedesBars d1 d2 (pre ++ rest) seen =
      eodPrecedesBars d1 d2 rest seen := by
  intro pre
  induction pre with
  | nil => intro rest _ seen; rfl
  | cons e pre2 ih =>
    intro rest hall seen
    obtain ⟨ts, b, rfl, hday⟩ := hall e (List.mem_cons_self e pre2)
    have hrest : allBarsOn d1 pre2 :=
      fun x hx => hall x (List.mem_cons_of_mem _ hx)
    rw [List.cons_append]
    have hstep : eodPrecedesBars d1 d2
        (ClockEvent.bars ts b :: (pre2 ++ rest)) seen =
        ((decide (dayOf ts ≠ d2) || seen) &&
          eodPrecedesBars d1 d2 (pre2 ++ rest) seen) := rfl
    rw [hstep, ih rest hrest seen]
    have hd : decide (dayOf ts ≠ d2) = true := by
      simp only [decide_eq_true_eq]
      rw [hday]
      exact hne
    simp [hd]

theorem epb_of_invC6_shape (D1 D2 : ℕ) (hne : D1 ≠ D2)
    (pre post : List ClockEvent) (hpre : allBarsOn D1 pre) :
    eodPrecedesBars D1 D2 (pre ++ ClockEvent.eod D1 :: post) false = true := by
  rw [epb_allBarsOn D1 D2 hne pre _ hpre false]
  have h1 : eodPrecedesBars D1 D2 (ClockEvent.eod D1 :: post) false =
      eodPrecedesBars D1 D2 post (false || decide (D1 = D1)) := rfl
  rw [h1, show (false || decide (D1 = D1)) = true from by simp]
  exact epb_seen_true D1 D2 post

theorem ds_step_none_stall (s : DataClient) (flag env : Bool)
    (h : s.current_date_index < s.unique_timestamps.length)
    (hcd : s.current_day = none) (hpub : (flag || env) = false) :
    data_stream s flag env =
      (true,
        { s with
            next_date :=
              some (s.unique_timestamps.get ⟨s.current_date_index, h⟩)
            current_day :=
              some (dayOf (s.unique_timestamps.get ⟨s.current_date_index, h⟩)) },
        false, []) := by
  rw [data_stream_in_range s flag env h, boundary_none s flag _ hcd,
    advanceWith_stall _ _ _ _ _ hpub]

theorem ds_step_none_pub (s : DataClient) (flag env : Bool)
    (h : s.current_date_index < s.unique_timestamps.length)
    (hcd : s.current_day = none) (hpub : (flag || env) = true) :
    data_stream s flag env =
      (true,
        { s with
            next_date :=
              some (s.unique_timestamps.get ⟨s.current_date_index, h⟩)
            current_day :=
              some (dayOf (s.unique_timestamps.get ⟨s.current_date_index, h⟩))
            current_date_index := s.current_date_index + 1 },
        true,
        [ClockEvent.bars (s.unique_timestamps.get ⟨s.current_date_index, h⟩)
          (set_market_data { s with
            next_date :=
              some (s.unique_timestamps.get ⟨s.current_date_index, h⟩)
            current_day :=
              some (dayOf
                (s.unique_timestamps.get ⟨s.current_date_index, h⟩)) })]) := by
  rw [data_stream_in_range s flag env h, boundary_none s flag _ hcd,
    advanceWith_pub _ _ _ _ _ hpub]
  rfl

theorem ds_step_trans_stall (s : DataClient) (flag env : Bool) (d : ℕ)
    (h : s.current_date_index < s.unique_timestamps.length)
    (hcd : s.current_day = some d)
    (hne : dayOf (s.unique_timestamps.get ⟨s.current_date_index, h⟩) ≠ d)
    (hpub : env = false) :
    data_stream s flag env =
      (true,
        { s with
            next_date :=
              some (s.unique_timestamps.get ⟨s.current_date_index, h⟩)
            current_day :=
              some (dayOf (s.unique_timestamps.get ⟨s.current_date_index, h⟩)) },
        false, [ClockEvent.eod d]) := by
  rw [data_stream_in_range s flag env h, boundary_some_ne s flag _ d hcd hne,
    advanceWith_stall _ _ _ _ _ (by rw [hpub]; rfl)]

theorem ds_step_trans_pub (s : DataClient) (flag env : Bool) (d : ℕ)
    (h : s.current_date_index < s.unique_timestamps.length)
    (hcd : s.current_day = some d)
    (hne : dayOf (s.unique_timestamps.get ⟨s.current_date_index, h⟩) ≠ d)
    (hpub : env = true) :
    data_stream s flag env =
      (true,
        { s with
            next_date :=
              some (s.unique_timestamps.get ⟨s.current_date_index, h⟩)
            current_day :=
              some (dayOf (s.unique_timestamps.get ⟨s.current_date_index, h⟩))
            current_date_index := s.current_date_index + 1 },
        true,
        [ClockEvent.eod d,
          ClockEvent.bars (s.unique_timestamps.get ⟨s.current_date_index, h⟩)
          (set_market_data { s with
            next_date :=
              some (s.unique_timestamps.get ⟨s.current_date_index, h⟩)
            current_day :=
              some (dayOf
                (s.unique_timestamps.get ⟨s.current_date_index, h⟩)) })]) := by
  rw [data_stream_in_range s flag env h, boundary_some_ne s flag _ d hcd hne,
    advanceWith_pub _ _ _ _ _ (by rw [hpub]; rfl)]
  rfl

theorem ds_step_same_stall (s : DataClient) (flag env : Bool) (d : ℕ)
    (h : s.current_date_index < s.unique_timestamps.length)
    (hcd : s.current_day = some d)
    (heq : dayOf (s.unique_timestamps.get ⟨s.current_date_index, h⟩) = d)
    (hpub : (flag || env) = false) :
    data_stream s flag env =
      (true,
        { s with
            next_date :=
              some (s.unique_timestamps.get ⟨s.current_date_index, h⟩) },
        false, []) := by
  rw [data_stream_in_range s flag env h, boundary_some_eq s flag _ d hcd heq,
    advanceWith_stall _ _ _ _ _ hpub]

theorem ds_step_same_pub (s : DataClient) (flag env : Bool) (d : ℕ)
    (h : s.current_date_index < s.unique_timestamps.length)
    (hcd : s.current_day = some d)
    (heq : dayOf (s.unique_timestamps.get ⟨s.current_date_index, h⟩) = d)
    (hpub : (flag || env) = true) :
    data_stream s flag env =
      (true,
        { s with
            next_date :=
              some (s.unique_timestamps.get ⟨s.current_date_index, h⟩)
            current_date_index := s.current_date_index + 1 },
        true,
        [ClockEvent.bars (s.unique_timestamps.get ⟨s.current_date_index, h⟩)
          (set_market_data { s with
            next_date :=
              some (s.unique_timestamps.get
                ⟨s.current_date_index, h⟩) })]) := by
  rw [data_stream_in_range s flag env h, boundary_some_eq s flag _ d hcd heq,
    advanceWith_pub _ _ _ _ _ hpub]
  rfl

theorem data_stream_true_advances (s : DataClient) (flag : Bool)
    (h : s.current_date_index < s.unique_timestamps.length) :
    ((data_stream s flag true).2.1).current_date_index =
      s.current_date_index + 1 ∧
    ((data_stream s flag true).2.1).unique_timestamps =
      s.unique_timestamps := by
  rw [data_stream_in_range s flag true h]
  rcases hcd : s.current_day with _ | d
  · rw [boundary_none s flag _ hcd,
      advanceWith_pub _ _ _ _ _ (Bool.or_true _)]
    exact ⟨rfl, rfl⟩
  · by_cases hne : dayOf (s.unique_timestamps.get ⟨s.current_date_index, h⟩)
        ≠ d
    · rw [boundary_some_ne s flag _ d hcd hne,
        advanceWith_pub _ _ _ _ _ (Bool.or_true _)]
      exact ⟨rfl, rfl⟩
    · rw [not_not] at hne
      rw [boundary_some_eq s flag _ d hcd hne,
        advanceWith_pub _ _ _ _ _ (Bool.or_true _)]
      exact ⟨rfl, rfl⟩

theorem data_stream_invC6 (D1 D2 : ℕ) (hlt : D1 < D2) (s : DataClient)
    (flag env : Bool) (evs : List ClockEvent)
    (hsort : s.unique_timestamps.Sorted (· ≤ ·))
    (hdich : ∀ t ∈ s.unique_timestamps, dayOf t = D1 ∨ dayOf t = D2)
    (hd1 : ∃ t ∈ s.unique_timestamps, dayOf t = D1)
    (hinv : InvC6 D1 D2 s evs) :
    (data_stream s flag env).2.1.unique_timestamps = s.unique_timestamps ∧
    InvC6 D1 D2 (data_stream s flag env).2.1
      (evs ++ (data_stream s flag env).2.2.2) := by
  obtain ⟨hlen, hcase⟩ := hinv
  by_cases h : s.current_date_index < s.unique_timestamps.length
  case neg =>
    rw [data_stream_exhausted s flag env (Nat.not_lt.mp h)]
    exact ⟨rfl, hlen, by simpa using hcase⟩
  case pos =>
  rcases hcase with ⟨hcd, hcur0, hevs0⟩ | ⟨hcd, hall, hclause⟩ |
    ⟨hcd, htail, pre, post, hdecomp, hpre, hpost⟩
  · -- no current day yet: the cursor is at 0 and the first timestamp is on D1
    subst hevs0
    have hday0 : dayOf (s.unique_timestamps.get ⟨s.current_date_index, h⟩)
        = D1 := by
      obtain ⟨t, ht, htd⟩ := hd1
      obtain ⟨⟨j, hj⟩, hget⟩ := List.mem_iff_get.mp ht
      have hij : s.current_date_index ≤ j := by omega
      have hle := sorted_get_le hsort hij hj
      have hmono := dayOf_mono hle
      rw [hget, htd] at hmono
      rcases hdich _ (List.get_mem s.unique_timestamps _ h) with h1 | h2
      · exact h1
      · omega
    cases hpub : (flag || env)
    · rw [ds_step_none_stall s flag env h hcd hpub]
      refine ⟨rfl, hlen, Or.inr (Or.inl
        ⟨congrArg some hday0, ?_, ?_⟩)⟩
      · intro e he
        simp at he
      · intro j hj hjc
        have hjc2 : j < s.current_date_index := hjc
        omega
    · rw [ds_step_none_pub s flag env h hcd hpub]
      refine ⟨rfl, h, Or.inr (Or.inl ⟨congrArg some hday0, ?_, ?_⟩)⟩
      · intro e he
        simp only [List.nil_append, List.mem_singleton] at he
        exact ⟨_, _, he, hday0⟩
      · intro j hj hjc
        have hjc2 : j < s.current_date_index + 1 := hjc
        have hj0 : j = s.current_date_index := by omega
        subst hj0
        exact hday0
  · -- current day D1
    rcases hdich _ (List.get_mem s.unique_timestamps _ h) with hday | hday
    · -- next timestamp still on D1: no transition
      cases hpub : (flag || env)
      · rw [ds_step_same_stall s flag env D1 h hcd hday hpub]
        refine ⟨rfl, hlen, Or.inr (Or.inl ⟨hcd, ?_, hclause⟩)⟩
        intro e he
        exact hall e (by simpa using he)
      · rw [ds_step_same_pub s flag env D1 h hcd hday hpub]
        refine ⟨rfl, h, Or.inr (Or.inl ⟨hcd, ?_, ?_⟩)⟩
        · intro e he
          rcases List.mem_append.mp he with he2 | he2
          · exact hall e he2
          · simp only [List.mem_singleton] at he2
            exact ⟨_, _, he2, hday⟩
        · intro j hj hjc
          have hjc2 : j < s.current_date_index + 1 := hjc
          rcases Nat.lt_succ_iff_lt_or_eq.mp hjc2 with hjlt | hjeq
          · exact hclause j hj hjlt
          · subst hjeq
            exact hday
    · -- next timestamp on D2: the day transition fires, emitting eod D1
      have hne : dayOf (s.unique_timestamps.get ⟨s.current_date_index, h⟩)
          ≠ D1 := by
        rw [hday]
        exact ne_of_gt hlt
      have htail2 : ∀ j, ∀ hj : j < s.unique_timestamps.length,
          s.current_date_index ≤ j →
          dayOf (s.unique_timestamps.get ⟨j, hj⟩) = D2 := by
        intro j hj hij
        have hle := sorted_get_le hsort hij hj
        have hmono := dayOf_mono hle
        rw [hday] at hmono
        rcases hdich _ (List.get_mem s.unique_timestamps _ hj) with h1 | h2
        · omega
        · exact h2
      cases hpub : env
      · rw [ds_step_trans_stall s flag false D1 h hcd hne rfl]
        refine ⟨rfl, hlen, Or.inr (Or.inr ⟨congrArg some hday, htail2,
          evs, [], rfl, hall, ?_⟩)⟩
        intro e he
        simp at he
      · rw [ds_step_trans_pub s flag true D1 h hcd hne rfl]
        refine ⟨rfl, h, Or.inr (Or.inr ⟨congrArg some hday, ?_,
          evs, [ClockEvent.bars _ _], rfl, hall, ?_⟩)⟩
        · intro j hj hjc
          have hjc2 : s.current_date_index + 1 ≤ j := hjc
          exact htail2 j hj (by omega)
        · intro e he
          simp only [List.mem_singleton] at he
          exact ⟨_, _, he⟩
  · -- current day D2: every remaining timestamp is on D2, no transition
    have hday : dayOf (s.unique_timestamps.get ⟨s.current_date_index, h⟩)
        = D2 := htail s.current_date_index h (le_refl _)
    cases hpub : (flag || env)
    · rw [ds_step_same_stall s flag env D2 h hcd hday hpub]
      refine ⟨rfl, hlen, Or.inr (Or.inr ⟨hcd, htail, pre, post,
        ?_, hpre, hpost⟩)⟩
      rw [List.append_nil, hdecomp]
    · rw [ds_step_same_pub s flag env D2 h hcd hday hpub]
      refine ⟨rfl, h, Or.inr (Or.inr ⟨hcd, ?_, pre,
        post ++ [ClockEvent.bars
          (s.unique_timestamps.get ⟨s.current_date_index, h⟩)
          (set_market_data { s with
            next_date :=
              some (s.unique_timestamps.get ⟨s.current_date_index, h⟩) })],
        ?_, hpre, ?_⟩)⟩
      · intro j hj hjc
        have hjc2 : s.current_date_index + 1 ≤ j := hjc
        exact htail j hj (by omega)
      · rw [hdecomp]
        simp
      · intro e he
        rcases List.mem_append.mp he with he2 | he2
        · exact hpost e he2
        · simp only [List.mem_singleton] at he2
          exact ⟨_, _, he2⟩

theorem uniqueSorted_length_le : ∀ l : List ℕ,
    (uniqueSorted l).length ≤ l.length := by
  intro l
  induction l with
  | nil => exact le_refl _
  | cons a rest ih =>
    cases rest with
    | nil => exact le_refl _
    | cons b rest2 =>
      by_cases hab : a = b
      · subst hab
        rw [uniqueSorted_cons_dup]
        exact Nat.le_succ_of_le ih
      · rw [uniqueSorted_cons_ne rest2 hab]
        simpa using ih

theorem initClock_timestamps_length_le (rows : List Row) :
    (initClock rows).unique_timestamps.length ≤ rows.length := by
  have h1 := uniqueSorted_length_le ((sortRows rows).map Row.timestamp)
  rw [List.length_map] at h1
  have h2 : (sortRows rows).length = rows.length := by
    unfold sortRows
    exact List.length_mergeSort rows
  rw [h2] at h1
  exact h1

theorem runClock_invC6 (D1 D2 : ℕ) (hlt : D1 < D2) (envs : List Bool) :
    ∀ (s : DataClient) (flag : Bool) (evs : List ClockEvent),
      s.unique_timestamps.Sorted (· ≤ ·) →
      (∀ t ∈ s.unique_timestamps, dayOf t = D1 ∨ dayOf t = D2) →
      (∃ t ∈ s.unique_timestamps, dayOf t = D1) →
      InvC6 D1 D2 s evs →
      (runClock s flag envs).1.unique_timestamps = s.unique_timestamps ∧
      InvC6 D1 D2 (runClock s flag envs).1
        (evs ++ (runClock s flag envs).2.2) := by
  induction envs with
  | nil =>
    intro s flag evs _ _ _ hinv
    refine ⟨rfl, ?_⟩
    simpa [runClock] using hinv
  | cons e rest ih =>
    intro s flag evs hsort hdich hd1 hinv
    obtain ⟨hT, hinv2⟩ :=
      data_stream_invC6 D1 D2 hlt s flag e evs hsort hdich hd1 hinv
    have hrec := ih (data_stream s flag e).2.1 (data_stream s flag e).2.2.1
      (evs ++ (data_stream s flag e).2.2.2)
      (by rw [hT]; exact hsort) (by rw [hT]; exact hdich)
      (by rw [hT]; exact hd1) hinv2
    constructor
    · show (runClock (data_stream s flag e).2.1
        (data_stream s flag e).2.2.1 rest).1.unique_timestamps = _
      rw [hrec.1, hT]
    · show InvC6 D1 D2 (runClock (data_stream s flag e).2.1
        (data_stream s flag e).2.2.1 rest).1
        (evs ++ ((data_stream s flag e).2.2.2 ++
          (runClock (data_stream s flag e).2.1
            (data_stream s flag e).2.2.1 rest).2.2))
      rw [← List.append_assoc]
      exact hrec.2

theorem runClock_replicate_cursor : ∀ (k : ℕ) (s : DataClient) (flag : Bool),
    s.current_date_index ≤ s.unique_timestamps.length →
    (runClock s flag (List.replicate k true)).1.current_date_index =
      min (s.current_date_index + k) s.unique_timestamps.length ∧
    (runClock s flag (List.replicate k true)).1.unique_timestamps =
      s.unique_timestamps := by
  intro k
  induction k with
  | zero =>
    intro s flag hle
    constructor
    · show s.current_date_index =
        min (s.current_date_index + 0) s.unique_timestamps.length
      omega
    · rfl
  | succ k ih =>
    intro s flag hle
    rw [List.replicate_succ]
    by_cases h : s.current_date_index < s.unique_timestamps.length
    · obtain ⟨hc, hT⟩ := data_stream_true_advances s flag h
      have hle2 : (data_stream s flag true).2.1.current_date_index ≤
          (data_stream s flag true).2.1.unique_timestamps.length := by
        rw [hc, hT]
        omega
      obtain ⟨hc2, hT2⟩ := ih (data_stream s flag true).2.1
        (data_stream s flag true).2.2.1 hle2
      constructor
      · show (runClock (data_stream s flag true).2.1
          (data_stream s flag true).2.2.1
          (List.replicate k true)).1.current_date_index = _
        rw [hc2, hc, hT]
        omega
      · show (runClock (data_stream s flag true).2.1
          (data_stream s flag true).2.2.1
          (List.replicate k true)).1.unique_timestamps = _
        rw [hT2, hT]
    · have hexh := data_stream_exhausted s flag true (Nat.not_lt.mp h)
      have e1 : (data_stream s flag true).2.1 = s := by rw [hexh]
      have e2 : (data_stream s flag true).2.2.1 = flag := by rw [hexh]
      obtain ⟨hc2, hT2⟩ := ih s flag hle
      constructor
      · show (runClock (data_stream s flag true).2.1
          (data_stream s flag true).2.2.1
          (List.replicate k true)).1.current_date_index = _
        rw [e1, e2, hc2]
        omega
      · show (runClock (data_stream s flag true).2.1
          (data_stream s flag true).2.2.1
          (List.replicate k true)).1.unique_timestamps = _
        rw [e1, e2, hT2]

/-- C6: over a data set whose rows (in any input order) span exactly the two
calendar days D1 < D2, a driver loop repeatedly calling the clock emits at
most one EndOfDay event for D1 under every environment behavior, the EndOfDay
event for D1 always precedes any bar batch whose timestamp falls on D2 in the
emission order, and a completed run (enough calls, each allowed to publish)
emits exactly one EndOfDay event for D1. -/
theorem c6_day_boundary_ordering (rows : List Row) (D1 D2 : ℕ) (flag : Bool)
    (envs : List Bool) (k : ℕ)
    (hdays : ∀ r ∈ rows, dayOf r.timestamp = D1 ∨ dayOf r.timestamp = D2)
    (hd1 : ∃ r ∈ rows, dayOf r.timestamp = D1)
    (hd2 : ∃ r ∈ rows, dayOf r.timestamp = D2)
    (hlt : D1 < D2)
    (hk : (initClock rows).unique_timestamps.length ≤ k) :
    countEod D1 ((runClock (initClock rows) flag envs).2.2) ≤ 1 ∧
    eodPrecedesBars D1 D2 ((runClock (initClock rows) flag envs).2.2) false
      = true ∧
    countEod D1 ((runClock (initClock rows) true
      (List.replicate k true)).2.2) = 1 := by
  have hdichT : ∀ t ∈ (initClock rows).unique_timestamps,
      dayOf t = D1 ∨ dayOf t = D2 := by
    intro t ht
    have ht2 := (mem_uniqueSorted ((sortRows rows).map Row.timestamp) t).mp ht
    obtain ⟨r, hr, hrt⟩ := List.mem_map.mp ht2
    have hr2 : r ∈ rows := by
      unfold sortRows at hr
      exact List.mem_mergeSort.mp hr
    rw [← hrt]
    exact hdays r hr2
  have hmemT : ∀ r ∈ rows,
      r.timestamp ∈ (initClock rows).unique_timestamps := by
    intro r hr
    apply (mem_uniqueSorted ((sortRows rows).map Row.timestamp) _).mpr
    apply List.mem_map.mpr
    refine ⟨r, ?_, rfl⟩
    unfold sortRows
    exact List.mem_mergeSort.mpr hr
  have hd1T : ∃ t ∈ (initClock rows).unique_timestamps, dayOf t = D1 := by
    obtain ⟨r, hr, hrd⟩ := hd1
    exact ⟨r.timestamp, hmemT r hr, hrd⟩
  have hd2T : ∃ t ∈ (initClock rows).unique_timestamps, dayOf t = D2 := by
    obtain ⟨r, hr, hrd⟩ := hd2
    exact ⟨r.timestamp, hmemT r hr, hrd⟩
  have hinit : InvC6 D1 D2 (initClock rows) [] :=
    ⟨Nat.zero_le _, Or.inl ⟨rfl, rfl, rfl⟩⟩
  have hgen := runClock_invC6 D1 D2 hlt envs (initClock rows) flag []
    (initClock_sorted rows) hdichT hd1T hinit
  have hfin := hgen.2
  rw [List.nil_append] at hfin
  obtain ⟨hflen, hfcase⟩ := hfin
  refine ⟨?_, ?_, ?_⟩
  · rcases hfcase with ⟨_, _, hevs⟩ | ⟨_, hall, _⟩ |
      ⟨_, _, pre, post, hdec, hpre, hpost⟩
    · rw [hevs]
      simp [countEod]
    · rw [countEod_barsOnly D1 _ (allBarsOn_barsOnly hall)]
      omega
    · rw [hdec, countEod_decomp D1 pre post (allBarsOn_barsOnly hpre) hpost]
  · rcases hfcase with ⟨_, _, hevs⟩ | ⟨_, hall, _⟩ |
      ⟨_, _, pre, post, hdec, hpre, hpost⟩
    · rw [hevs]
      rfl
    · have hepb := epb_allBarsOn D1 D2 (Nat.ne_of_lt hlt) _ [] hall false
      rw [List.append_nil] at hepb
      rw [hepb]
      rfl
    · rw [hdec]
      exact epb_of_invC6_shape D1 D2 (Nat.ne_of_lt hlt) pre post hpre
  · have hgen2 := runClock_invC6 D1 D2 hlt (List.replicate k true)
      (initClock rows) true [] (initClock_sorted rows) hdichT hd1T hinit
    have hfin2 := hgen2.2
    rw [List.nil_append] at hfin2
    obtain ⟨hflen2, hfcase2⟩ := hfin2
    obtain ⟨hcur, hTfin⟩ :=
      runClock_replicate_cursor k (initClock rows) true (Nat.zero_le _)
    have h0 : (initClock rows).current_date_index = 0 := rfl
    rw [h0] at hcur
    have hlenpos : 0 < (initClock rows).unique_timestamps.length := by
      obtain ⟨t, ht, _⟩ := hd2T
      exact List.length_pos.mpr (List.ne_nil_of_mem ht)
    have hcurlen : (runClock (initClock rows) true
        (List.replicate k true)).1.current_date_index =
        (initClock rows).unique_timestamps.length := by
      rw [hcur]
      omega
    rcases hfcase2 with ⟨_, hc0, _⟩ | ⟨_, _, hclause⟩ |
      ⟨_, _, pre, post, hdec, hpre, hpost⟩
    · rw [hcurlen] at hc0
      omega
    · obtain ⟨t, ht, htd⟩ := hd2T
      have ht2 : t ∈ (runClock (initClock rows) true
          (List.replicate k true)).1.unique_timestamps := by
        rw [hTfin]
        exact ht
      obtain ⟨⟨j, hj⟩, hget⟩ := List.mem_iff_get.mp ht2
      have hfl : (runClock (initClock rows) true
          (List.replicate k true)).1.unique_timestamps.length =
          (initClock rows).unique_timestamps.length := by
        rw [hTfin]
      have hjc : j < (runClock (initClock rows) true
          (List.replicate k true)).1.current_date_index := by
        rw [hcurlen, ← hfl]
        exact hj
      have hD1 := hclause j hj hjc
      rw [hget, htd] at hD1
      omega
    · rw [hdec, countEod_decomp D1 pre post (allBarsOn_barsOnly hpre) hpost]

theorem c6_day_boundary_ordering_witness :
    countEod 0 ((runClock
      (initClock [⟨86400000000000, ("ES"), 2, 2, 2, 2, 5⟩,
        ⟨0, ("ES"), 1, 1, 1, 1, 4⟩])
      true [true, false, true]).2.2) ≤ 1 ∧
    eodPrecedesBars 0 1 ((runClock
      (initClock [⟨86400000000000, ("ES"), 2, 2, 2, 2, 5⟩,
        ⟨0, ("ES"), 1, 1, 1, 1, 4⟩])
      true [true, false, true]).2.2) false = true ∧
    countEod 0 ((runClock
      (initClock [⟨86400000000000, ("ES"), 2, 2, 2, 2, 5⟩,
        ⟨0, ("ES"), 1, 1, 1, 1, 4⟩])
      true (List.replicate 2 true)).2.2) = 1 :=
  c6_day_boundary_ordering
    [⟨86400000000000, ("ES"), 2, 2, 2, 2, 5⟩, ⟨0, ("ES"), 1, 1, 1, 1, 4⟩]
    0 1 true [true, false, true] 2
    (by decide) (by decide) (by decide) (by decide)
    (le_trans (initClock_timestamps_length_le _) (by decide))

end Midas
